import Mathlib

/- Verification of the WF-Guard dataset-construction pipeline: a shallow
embedding of `extract_features.py` and `build_dataset.py`.

Modelling conventions:
* Python floats are modelled as exact rationals (ℚ).  The ratio constants
  0.7 and 0.15 are the rationals 7/10 and 3/20; for every concrete instance
  used below the float computation of the source and the rational one agree.
* numpy's seeded permutation `np.random.default_rng(seed).permutation(n)` is a
  deterministic pure function of the seed.  It is modelled as an explicit
  argument (`perm : List Nat`, or a function `rngPerm : Nat → Nat → List Nat`
  taking seed and n), together with the hypothesis, guaranteed by numpy, that
  the produced list is a permutation of `List.range n`.
* pandas DataFrames of per-packet rows are modelled as lists; a parsed session
  with the three required columns is a `List PacketRecord`.  A raw on-disk
  table (whose column set must still be validated) is a `RawTable`.
* Fallible operations return `Option`; `none` models a raised exception
  (`np.max` on an empty array, `np.stack` on an empty list) or, for the
  loader, its deliberate `None` result.
* The filesystem is a function `String → Option RawTable` mapping a path to
  the table stored there (`none` when no file exists at that path).
* `astype(np.float32)` is modelled as the identity on ℚ; no claim below
  depends on rounding of the 32-bit conversion.
-/

namespace WFGuard

/-- One packet record: columns timestamp, size, direction of a parsed session. -/
structure PacketRecord where
  timestamp : ℚ
  size : ℚ
  direction : ℚ
deriving DecidableEq

/-- The three per-session channels returned by `extract_session_features`. -/
structure SessionFeatures where
  sizes : List ℚ
  directions : List ℚ
  iat : List ℚ
deriving DecidableEq

/-- Source `compute_inter_packet_times`: gaps between consecutive timestamps,
first gap 0; for fewer than two packets, an all-zero list of the same length. -/
def compute_inter_packet_times (ts : List ℚ) : List ℚ :=
  if ts.length < 2 then List.replicate ts.length 0
  else 0 :: (ts.zip ts.tail).map (fun p => p.2 - p.1)

/-- Model of `np.max` on a 1-d array: `none` models the ValueError raised on an
empty array. -/
def npMax : List ℚ → Option ℚ
  | [] => none
  | x :: xs => some (xs.foldl max x)

/-- Whether an optional explicit scale is present and positive
(the condition `scale is not None and scale > 0` of the source). -/
def scalePos : Option ℚ → Bool
  | some s => decide (0 < s)
  | none => false

/-- Source lines 63-71 of `extract_features.py`, for one channel: divide by an
explicit positive scale if given, else by the channel maximum when positive,
else leave unchanged; `none` models the ValueError that `np.max` raises on an
empty channel. -/
def normalizeChannel (normalize : Bool) (scale : Option ℚ) (l : List ℚ) :
    Option (List ℚ) :=
  if normalize && scalePos scale then some (l.map (fun x => x / scale.getD 1))
  else if normalize then
    match npMax l with
    | none => none
    | some mx => if 0 < mx then some (l.map (fun x => x / mx)) else some l
  else some l

/-- Source lines 52-61 of `extract_features.py`: truncate to the first
`maxPackets` values when the session is longer, pad with zeros at the tail
when shorter, else leave unchanged.  `n` is the raw session length. -/
def padTrunc (n maxPackets : Nat) (l : List ℚ) : List ℚ :=
  if n > maxPackets then l.take maxPackets
  else if n < maxPackets then l ++ List.replicate (maxPackets - n) 0
  else l

/-- Source `extract_session_features`: build the size, direction and
inter-arrival channels, pad or truncate each to `maxPackets`, then normalize
the size and inter-arrival channels (directions are never normalized). -/
def extract_session_features (df : List PacketRecord) (maxPackets : Nat)
    (normalizeSizes normalizeTimes : Bool) (sizeScale timeScale : Option ℚ) :
    Option SessionFeatures :=
  let n := df.length
  let sizes := padTrunc n maxPackets (df.map PacketRecord.size)
  let directions := padTrunc n maxPackets (df.map PacketRecord.direction)
  let iat := padTrunc n maxPackets
    (compute_inter_packet_times (df.map PacketRecord.timestamp))
  match normalizeChannel normalizeSizes sizeScale sizes,
        normalizeChannel normalizeTimes timeScale iat with
  | some sizes2, some iat2 => some ⟨sizes2, directions, iat2⟩
  | _, _ => none

/-- Source `session_to_vector`: concatenate the channels in the fixed order
sizes, directions, (iat when included). -/
def session_to_vector (df : List PacketRecord) (maxPackets : Nat)
    (normalizeSizes normalizeTimes includeIat : Bool) : Option (List ℚ) :=
  match extract_session_features df maxPackets normalizeSizes normalizeTimes
      none none with
  | none => none
  | some f =>
      some (if includeIat then f.sizes ++ f.directions ++ f.iat
            else f.sizes ++ f.directions)

/-- One metadata record of the built corpus (source: the dict appended in
`build_features_and_metadata`). -/
structure MetaRow where
  site_id : String
  visit_id : String
  defense_on : Bool
  packet_count : Int
  total_bytes : Int
deriving DecidableEq, Inhabited

/-- The visit identity (site_id, visit_id) of a metadata row. -/
def MetaRow.visit (m : MetaRow) : String × String := (m.site_id, m.visit_id)

/-- The balance-group key (site_id, defense_on) of a metadata row. -/
def MetaRow.group (m : MetaRow) : String × Bool := (m.site_id, m.defense_on)

/-- pandas `drop_duplicates` (keep="first"): keep the first occurrence of each
value, in first-occurrence order. -/
def dropDuplicates {α : Type} [DecidableEq α] : List α → List α
  | [] => []
  | x :: xs => x :: (dropDuplicates xs).filter (fun y => y ≠ x)

/-- Source line 122: the distinct visit identities of the metadata, dropping
duplicates across rows (in particular across defense flags). -/
def visitsOf (metadata : List MetaRow) : List (String × String) :=
  dropDuplicates (metadata.map MetaRow.visit)

/-- Python `int()` applied to the nonnegative products n·ratio of the source,
where it is the floor; `toNat` makes it usable as a list index. -/
def pyInt (q : ℚ) : Nat := (⌊q⌋).toNat

/-- Source constant TRAIN_RATIO = 0.7. -/
def TRAIN_FRAC : ℚ := 7/10

/-- Source constant VAL_RATIO = 0.15. -/
def VAL_FRAC : ℚ := 3/20

/-- Source constant TEST_RATIO = 0.15 (never read by the algorithm). -/
def TEST_FRAC : ℚ := 3/20

/-- Lookup of a value at an optional row, false when the row is absent. -/
def optTest {α : Type} (p : α → Bool) : Option α → Bool
  | some a => p a
  | none => false

/-- Whether metadata row i exists and has visit identity in `vs`. -/
def rowVisitIn (metadata : List MetaRow) (vs : List (String × String))
    (i : Nat) : Bool :=
  optTest (fun m => decide (m.visit ∈ vs)) metadata[i]?

/-- Whether metadata row i exists and has balance-group key k. -/
def rowGroupIs (metadata : List MetaRow) (k : String × Bool) (i : Nat) : Bool :=
  optTest (fun m => decide (m.group = k)) metadata[i]?

/-- Source lines 122-130 of `build_dataset.py`: the seeded permutation of the
distinct visit identities, cut after `int(n*train_ratio)` and then after
`int(n*val_ratio)` further entries; the remainder is the test segment.
`perm` is the list produced by `np.random.default_rng(seed).permutation(n)`. -/
def splitVisitSegments (perm : List Nat) (metadata : List MetaRow)
    (trainFrac valFrac : ℚ) :
    List (String × String) × List (String × String) × List (String × String) :=
  let visits := visitsOf metadata
  let n := visits.length
  let nTrain := pyInt ((n : ℚ) * trainFrac)
  let nVal := pyInt ((n : ℚ) * valFrac)
  ((perm.take nTrain).filterMap (fun p => visits[p]?),
   ((perm.drop nTrain).take nVal).filterMap (fun p => visits[p]?),
   (perm.drop (nTrain + nVal)).filterMap (fun p => visits[p]?))

/-- Source `indices_for_visit_set`: the positions of the metadata rows whose
visit identity belongs to `vs`, in metadata order (pandas inner merge
preserves the order of the left keys). -/
def indices_for_visit_set (metadata : List MetaRow)
    (vs : List (String × String)) : List Nat :=
  (List.range metadata.length).filter (rowVisitIn metadata vs)

/-- Source `split_no_leakage`: assign whole visit identities to train/val/test
and return the metadata row positions of each split. -/
def split_no_leakage (perm : List Nat) (metadata : List MetaRow)
    (trainFrac valFrac : ℚ) : List Nat × List Nat × List Nat :=
  let segs := splitVisitSegments perm metadata trainFrac valFrac
  (indices_for_visit_set metadata segs.1,
   indices_for_visit_set metadata segs.2.1,
   indices_for_visit_set metadata segs.2.2)

/-- The metadata row positions drawn by a segment of the visit permutation:
`indices_for_visit_set` applied to the visit identities at the segment's
positions (an abbreviation used to state the split lemmas). -/
def segIdx (metadata : List MetaRow) (seg : List Nat) : List Nat :=
  indices_for_visit_set metadata
    (seg.filterMap (fun p => (visitsOf metadata)[p]?))

/-- The distinct balance-group keys (site_id, defense_on) of the metadata.
pandas `groupby` iterates keys in sorted order; since the collected indices
are sorted afterwards, the iteration order is immaterial and first-occurrence
order is used here. -/
def groupKeysOf (metadata : List MetaRow) : List (String × Bool) :=
  dropDuplicates (metadata.map MetaRow.group)

/-- The metadata row positions of one balance group, in original order
(pandas `group.index` of `df.groupby`). -/
def groupIdx (metadata : List MetaRow) (k : String × Bool) : List Nat :=
  (List.range metadata.length).filter (rowGroupIs metadata k)

/-- Source line 95-96: the minimum group size (`counts.min()`), 0 when there
are no rows. -/
def minCount (metadata : List MetaRow) : Nat :=
  match (groupKeysOf metadata).map (fun k => (groupIdx metadata k).length) with
  | [] => 0
  | s :: rest => rest.foldl Nat.min s

/-- Source lines 99-103: the first `minCount` row positions of every group,
collected and sorted ascending (`sorted(indices)`). -/
def balanceIndices (metadata : List MetaRow) : List Nat :=
  List.insertionSort (fun a b => a ≤ b)
    (((groupKeysOf metadata).map
        (fun k => (groupIdx metadata k).take (minCount metadata))).flatten)

/-- Source `enforce_balance`: trim every (site_id, defense_on) group to the
minimum group size; a no-op on empty metadata or minimum 0. -/
def enforce_balance {α : Type} (vectors : List α) (metadata : List MetaRow) :
    List α × List MetaRow :=
  if metadata.isEmpty then (vectors, metadata)
  else if minCount metadata = 0 then (vectors, metadata)
  else ((balanceIndices metadata).filterMap (fun j => vectors[j]?),
        (balanceIndices metadata).filterMap (fun j => metadata[j]?))

/-- An on-disk session table as read by pandas: column names and rows of
values (rows are rectangular in well-formed files). -/
structure RawTable where
  cols : List String
  rows : List (List ℚ)
deriving DecidableEq

/-- pandas `df.empty`: true when either axis has length 0. -/
def RawTable.emptyTable (t : RawTable) : Bool := t.rows.isEmpty || t.cols.isEmpty

/-- The check of source line 45: all of timestamp, size, direction present. -/
def requiredFields (t : RawTable) : Bool :=
  t.cols.contains "timestamp" && t.cols.contains "size"
    && t.cols.contains "direction"

/-- The base path `parsed_root/defense_dir/site_id/visit_id` of source
lines 35-36 (os.path.join with "/"). -/
def sessionBasePath (parsedRoot : String) (defenseOn : Bool)
    (siteId visitId : String) : String :=
  parsedRoot ++ "/" ++ (if defenseOn then "defense_on" else "defense_off")
    ++ "/" ++ siteId ++ "/" ++ visitId

/-- Source lines 37-44: the file the loader reads, if any: the parquet path
when the parquet format is selected and that file exists, else the csv path
when that file exists, else nothing. -/
def resolvedSessionFile (store : String → Option RawTable) (parsedRoot : String)
    (defenseOn : Bool) (siteId visitId fileFormat : String) : Option RawTable :=
  let base := sessionBasePath parsedRoot defenseOn siteId visitId
  if fileFormat = "parquet" && (store (base ++ ".parquet")).isSome then
    store (base ++ ".parquet")
  else if (store (base ++ ".csv")).isSome then store (base ++ ".csv")
  else none

/-- Source `load_parsed_session`: `none` when the backing file is absent, the
table is empty, or a required field is missing; otherwise the table itself. -/
def load_parsed_session (store : String → Option RawTable) (parsedRoot : String)
    (defenseOn : Bool) (siteId visitId fileFormat : String) : Option RawTable :=
  match resolvedSessionFile store parsedRoot defenseOn siteId visitId fileFormat with
  | none => none
  | some df =>
      if df.emptyTable || !requiredFields df then none else some df

/-- One column of a raw table, by name (empty when the column is absent;
only called on validated tables). -/
def RawTable.column (t : RawTable) (c : String) : List ℚ :=
  match t.cols.findIdx? (fun s => s = c) with
  | some j => t.rows.map (fun r => r.getD j 0)
  | none => []

/-- The packet records of a validated table: the three required columns
zipped row-wise. -/
def packetsOf (t : RawTable) : List PacketRecord :=
  ((t.column "timestamp").zip ((t.column "size").zip (t.column "direction"))).map
    (fun p => ⟨p.1, p.2.1, p.2.2⟩)

/-- One manifest row (the columns of `manifest.csv` that the builder reads;
packet_count and total_bytes are optional columns, read with `row.get`). -/
structure ManifestRow where
  site_id : String
  visit_id : String
  defense_on : Bool
  packet_count : Option Int
  total_bytes : Option Int
deriving DecidableEq

/-- Python `int()` on a rational: truncation toward zero. -/
def truncQ (q : ℚ) : Int := if q < 0 then ⌈q⌉ else ⌊q⌋

/-- The metadata dict built for one retained session (source lines 78-84). -/
def metaOfRow (row : ManifestRow) (df : RawTable) : MetaRow :=
  { site_id := row.site_id
    visit_id := row.visit_id
    defense_on := row.defense_on
    packet_count := row.packet_count.getD (df.rows.length : Int)
    total_bytes := row.total_bytes.getD (truncQ (df.column "size").sum) }

/-- The loop of source `build_features_and_metadata`, carrying the manifest
row index `i`: load each session, drop it when absent/invalid or below the
packet minimum, else extract its feature vector.  `none` models an uncaught
exception escaping from feature extraction. -/
def buildLoop (store : String → Option RawTable) (parsedRoot : String)
    (maxPackets minPackets : Nat) (fileFormat : String) :
    Nat → List ManifestRow → Option (List (List ℚ) × List MetaRow × List Nat)
  | _, [] => some ([], [], [])
  | i, row :: rest =>
    match load_parsed_session store parsedRoot row.defense_on row.site_id
        row.visit_id fileFormat with
    | none =>
        (buildLoop store parsedRoot maxPackets minPackets fileFormat (i+1)
            rest).map (fun r => (r.1, r.2.1, i :: r.2.2))
    | some df =>
        if df.rows.length < minPackets then
          (buildLoop store parsedRoot maxPackets minPackets fileFormat (i+1)
              rest).map (fun r => (r.1, r.2.1, i :: r.2.2))
        else
          match session_to_vector (packetsOf df) maxPackets true true true with
          | none => none
          | some vec =>
              (buildLoop store parsedRoot maxPackets minPackets fileFormat
                  (i+1) rest).map
                (fun r => (vec :: r.1, metaOfRow row df :: r.2.1, r.2.2))

/-- Source `build_features_and_metadata`: (vectors, metadata, dropped). -/
def build_features_and_metadata (store : String → Option RawTable)
    (parsedRoot : String) (manifest : List ManifestRow)
    (maxPackets minPackets : Nat) (fileFormat : String) :
    Option (List (List ℚ) × List MetaRow × List Nat) :=
  buildLoop store parsedRoot maxPackets minPackets fileFormat 0 manifest

/-- Model of `np.stack`: `none` models the ValueError raised on an empty list
or on arrays of unequal length. -/
def np_stack (vs : List (List ℚ)) : Option (List (List ℚ)) :=
  match vs with
  | [] => none
  | v :: rest =>
      if rest.all (fun w => w.length = v.length) then some (v :: rest) else none

/-- How one run of `main` ends: normal return 0, a diagnosed fatal return 1,
or an uncaught exception (which makes the interpreter exit nonzero). -/
inductive MainOutcome where
  | success : MainOutcome
  | fatal : String → MainOutcome
  | crash : MainOutcome
deriving DecidableEq

/-- The process exit status of an outcome (an uncaught Python exception
terminates the interpreter with status 1). -/
def exitStatus : MainOutcome → Nat
  | .success => 0
  | .fatal _ => 1
  | .crash => 1

/-- Source lines 184-215: split, stack every split into a matrix, write the
outputs (pure writes, no effect on the exit status), return 0.  `np.stack`
on an empty split raises. -/
def assembleStage (vectors : List (List ℚ)) (metadata : List MetaRow)
    (perm : List Nat) : MainOutcome :=
  let s := split_no_leakage perm metadata TRAIN_FRAC VAL_FRAC
  match np_stack (s.1.filterMap (fun i => vectors[i]?)),
        np_stack (s.2.1.filterMap (fun i => vectors[i]?)),
        np_stack (s.2.2.filterMap (fun i => vectors[i]?)) with
  | some _, some _, some _ => MainOutcome.success
  | _, _, _ => MainOutcome.crash

/-- Source lines 180-182: balance unless disabled by the flag. -/
def balancedPair {α : Type} (noBalance : Bool) (vectors : List α)
    (metadata : List MetaRow) : List α × List MetaRow :=
  if noBalance then (vectors, metadata) else enforce_balance vectors metadata

/-- Source `main`: manifest checks, feature building, optional balancing,
split and assembly.  `manifest` is the parsed manifest file (`none` when the
file does not exist), `rngPerm seed n` the seeded permutation of `range n`. -/
def mainModel (store : String → Option RawTable)
    (manifest : Option (List ManifestRow)) (rngPerm : Nat → Nat → List Nat)
    (parsedDir : String) (maxPackets minPackets : Nat) (noBalance : Bool)
    (seed : Nat) (fileFormat : String) : MainOutcome :=
  match manifest with
  | none => MainOutcome.fatal "Manifest not found"
  | some rows =>
    if rows.isEmpty then MainOutcome.fatal "Manifest is empty."
    else
      match build_features_and_metadata store parsedDir rows maxPackets
          minPackets fileFormat with
      | none => MainOutcome.crash
      | some (vectors, metadata, _) =>
        if vectors.isEmpty then
          MainOutcome.fatal "No sessions left after quality filter."
        else
          let vm := balancedPair noBalance vectors metadata
          assembleStage vm.1 vm.2 (rngPerm seed (visitsOf vm.2).length)

/-- The position of the second cut as the spec words it:
floor(n·train_ratio + n·val_ratio). -/
def specSecondCut (n : Nat) (trainFrac valFrac : ℚ) : Nat :=
  pyInt ((n : ℚ) * trainFrac + (n : ℚ) * valFrac)

/-- The position of the second cut as the code computes it:
int(n·train_ratio) + int(n·val_ratio). -/
def codeSecondCut (n : Nat) (trainFrac valFrac : ℚ) : Nat :=
  pyInt ((n : ℚ) * trainFrac) + pyInt ((n : ℚ) * valFrac)

/-- A metadata row with the given visit id (concrete test data). -/
def mkRow (v : String) : MetaRow :=
  { site_id := "s", visit_id := v, defense_on := false
    packet_count := 50, total_bytes := 5000 }

/-- Thirteen rows with thirteen distinct visit identities. -/
def meta13 : List MetaRow :=
  [mkRow "a", mkRow "b", mkRow "c", mkRow "d", mkRow "e", mkRow "f", mkRow "g",
   mkRow "h", mkRow "i", mkRow "j", mkRow "k", mkRow "l", mkRow "m"]

/-- Ten rows with ten distinct visit identities (Scenario A shape). -/
def meta10 : List MetaRow :=
  [mkRow "a", mkRow "b", mkRow "c", mkRow "d", mkRow "e", mkRow "f", mkRow "g",
   mkRow "h", mkRow "i", mkRow "j"]

/-- Two rows sharing one visit identity under both defense flags. -/
def metaPair : List MetaRow :=
  [{ site_id := "s", visit_id := "a", defense_on := false
     packet_count := 50, total_bytes := 5000 },
   { site_id := "s", visit_id := "a", defense_on := true
     packet_count := 50, total_bytes := 5000 }]

/-- Three rows: group ("s", false) twice, group ("t", false) once. -/
def metaGroups : List MetaRow :=
  [{ site_id := "s", visit_id := "a", defense_on := false
     packet_count := 1, total_bytes := 1 },
   { site_id := "s", visit_id := "b", defense_on := false
     packet_count := 2, total_bytes := 2 },
   { site_id := "t", visit_id := "c", defense_on := false
     packet_count := 3, total_bytes := 3 }]

/-- A three-packet session (concrete test data). -/
def demoSession : List PacketRecord :=
  [{ timestamp := 0, size := 100, direction := 1 },
   { timestamp := 0, size := 200, direction := -1 },
   { timestamp := 0, size := 150, direction := 1 }]

/-- A stored table whose direction column is missing. -/
def noDirTable : RawTable := { cols := ["timestamp", "size"], rows := [[0, 1]] }

/-- A store holding only `noDirTable` at the csv path of visit ("s", "v"). -/
def demoStore : String → Option RawTable :=
  fun p => if p = "p/defense_off/s/v.csv" then some noDirTable else none

/-- A well-formed 12-packet session table. -/
def ceTable : RawTable :=
  { cols := ["timestamp", "size", "direction"]
    rows := List.replicate 12 [0, 1, 1] }

/-- A store holding only `ceTable` at the csv path of visit ("s", "v"). -/
def ceStore : String → Option RawTable :=
  fun p => if p = "p/defense_off/s/v.csv" then some ceTable else none

/-- The manifest row of that single session. -/
def ceRow : ManifestRow :=
  { site_id := "s", visit_id := "v", defense_on := false
    packet_count := some 12, total_bytes := some 1200 }

/-- The identity permutation as a model of the seeded generator. -/
def ceRng : Nat → Nat → List Nat := fun _ n => List.range n

/-- The metadata row the builder produces for `ceRow` over `ceTable`. -/
def ceMeta : MetaRow :=
  { site_id := "s", visit_id := "v", defense_on := false
    packet_count := 12, total_bytes := 1200 }

/-- Membership is preserved by duplicate dropping. -/
theorem mem_dropDuplicates {α : Type} [DecidableEq α] (l : List α) (a : α) :
    a ∈ dropDuplicates l ↔ a ∈ l := by
  induction l with
  | nil => exact Iff.rfl
  | cons x xs ih =>
    by_cases hax : a = x
    · subst hax; simp [dropDuplicates]
    · simp [dropDuplicates, List.mem_filter, hax, ih]

/-- Duplicate dropping yields a list without duplicates. -/
theorem nodup_dropDuplicates {α : Type} [DecidableEq α] (l : List α) :
    (dropDuplicates l).Nodup := by
  induction l with
  | nil => exact List.nodup_nil
  | cons x xs ih =>
    refine List.nodup_cons.mpr ⟨?_, ih.filter _⟩
    simp [List.mem_filter]

/-- An index with a value is in range. -/
theorem lt_of_getElem?_some {α : Type} {l : List α} {i : Nat} {a : α}
    (h : l[i]? = some a) : i < l.length := by
  obtain ⟨hi, -⟩ := List.getElem?_eq_some.mp h
  exact hi

/-- Every in-range index has a value. -/
theorem getElem?_some_of_lt {α : Type} (l : List α) {i : Nat}
    (h : i < l.length) : ∃ a, l[i]? = some a :=
  ⟨l[i], List.getElem?_eq_getElem h⟩

/-- A value read from a list is a member of it. -/
theorem mem_of_getElem?_some {α : Type} {l : List α} {i : Nat} {a : α}
    (h : l[i]? = some a) : a ∈ l := by
  obtain ⟨hi, rfl⟩ := List.getElem?_eq_some.mp h
  exact List.getElem_mem hi

/-- In a duplicate-free list, a value determines its index. -/
theorem getElem?_inj_of_nodup {α : Type} {l : List α} (hl : l.Nodup)
    {i j : Nat} {a : α} (hi : l[i]? = some a) (hj : l[j]? = some a) : i = j := by
  obtain ⟨hi1, hi2⟩ := List.getElem?_eq_some.mp hi
  obtain ⟨hj1, hj2⟩ := List.getElem?_eq_some.mp hj
  have : (⟨i, hi1⟩ : Fin l.length) = ⟨j, hj1⟩ := by
    apply hl.get_inj_iff.mp
    simp only [List.get_eq_getElem]
    rw [hi2, hj2]
  exact congrArg Fin.val this

/-- Characterization of `optTest`. -/
theorem optTest_eq_true {α : Type} (p : α → Bool) (o : Option α) :
    optTest p o = true ↔ ∃ a, o = some a ∧ p a = true := by
  cases o <;> simp [optTest]

/-- Membership in a filter of a range. -/
theorem mem_filter_range {n : Nat} {p : Nat → Bool} {i : Nat} :
    i ∈ (List.range n).filter p ↔ i < n ∧ p i = true := by
  simp [List.mem_filter, List.mem_range]

/-- Membership in the index list of a visit set. -/
theorem mem_indices_for_visit_set (metadata : List MetaRow)
    (vs : List (String × String)) (i : Nat) :
    i ∈ indices_for_visit_set metadata vs ↔
      ∃ m, metadata[i]? = some m ∧ m.visit ∈ vs := by
  rw [indices_for_visit_set, mem_filter_range, rowVisitIn, optTest_eq_true]
  constructor
  · rintro ⟨-, m, hm, hv⟩
    exact ⟨m, hm, of_decide_eq_true hv⟩
  · rintro ⟨m, hm, hv⟩
    exact ⟨lt_of_getElem?_some hm, m, hm, decide_eq_true hv⟩

/-- Membership in one balance group's index list. -/
theorem mem_groupIdx (metadata : List MetaRow) (k : String × Bool) (i : Nat) :
    i ∈ groupIdx metadata k ↔
      ∃ m, metadata[i]? = some m ∧ m.group = k := by
  rw [groupIdx, mem_filter_range, rowGroupIs, optTest_eq_true]
  constructor
  · rintro ⟨-, m, hm, hv⟩
    exact ⟨m, hm, of_decide_eq_true hv⟩
  · rintro ⟨m, hm, hv⟩
    exact ⟨lt_of_getElem?_some hm, m, hm, decide_eq_true hv⟩

/-- The length of an index lookup over in-range indices. -/
theorem length_filterMap_getElem {α : Type} (l : List α) (idxs : List Nat)
    (h : ∀ i ∈ idxs, i < l.length) :
    (idxs.filterMap (fun p => l[p]?)).length = idxs.length := by
  induction idxs with
  | nil => rfl
  | cons i is ih =>
    obtain ⟨a, ha⟩ := getElem?_some_of_lt l (h i (by simp))
    rw [List.filterMap_cons, ha, List.length_cons,
      ih (fun j hj => h j (by simp [hj])), List.length_cons]

/-- Membership in an index lookup. -/
theorem mem_filterMap_getElem {α : Type} (l : List α) (idxs : List Nat)
    (v : α) :
    v ∈ idxs.filterMap (fun p => l[p]?) ↔ ∃ p ∈ idxs, l[p]? = some v := by
  simp [List.mem_filterMap]

/-- The three split segments reassemble the permutation. -/
theorem segs_partition (perm : List Nat) (a b : Nat) :
    perm.take a ++ ((perm.drop a).take b ++ perm.drop (a + b)) = perm := by
  rw [← List.drop_drop b a perm, List.take_append_drop, List.take_append_drop]

/-- A position below n lies in one of the three segments of a permutation of
`range n`. -/
theorem mem_some_seg {perm : List Nat} {n : Nat}
    (hperm : List.Perm perm (List.range n)) (a b : Nat) {p : Nat}
    (hp : p < n) :
    p ∈ perm.take a ∨ p ∈ (perm.drop a).take b ∨ p ∈ perm.drop (a + b) := by
  have hmem : p ∈ perm := hperm.mem_iff.mpr (List.mem_range.mpr hp)
  rw [← segs_partition perm a b] at hmem
  rcases List.mem_append.mp hmem with h1 | h23
  · exact Or.inl h1
  · exact Or.inr (List.mem_append.mp h23)

/-- A member of a permutation of `range n` is below n. -/
theorem perm_mem_lt {perm : List Nat} {n : Nat}
    (hperm : List.Perm perm (List.range n)) {p : Nat} (hp : p ∈ perm) :
    p < n :=
  List.mem_range.mp (hperm.mem_iff.mp hp)

/-- The three segments of a duplicate-free list are pairwise disjoint. -/
theorem segs_disjoint {perm : List Nat} (h : perm.Nodup) (a b : Nat) :
    (perm.take a).Disjoint ((perm.drop a).take b) ∧
    (perm.take a).Disjoint (perm.drop (a + b)) ∧
    ((perm.drop a).take b).Disjoint (perm.drop (a + b)) := by
  have h2 : (perm.take a ++ ((perm.drop a).take b ++ perm.drop (a + b))).Nodup := by
    rw [segs_partition]; exact h
  rw [List.nodup_append] at h2
  obtain ⟨-, h3, hd⟩ := h2
  rw [List.nodup_append] at h3
  refine ⟨?_, ?_, h3.2.2⟩
  · intro x hx1 hx2
    exact hd hx1 (List.mem_append.mpr (Or.inl hx2))
  · intro x hx1 hx2
    exact hd hx1 (List.mem_append.mpr (Or.inr hx2))

/-- Every metadata row's visit identity occurs at some position of the
deduplicated visit list. -/
theorem visit_pos (metadata : List MetaRow) {i : Nat} {m : MetaRow}
    (h : metadata[i]? = some m) :
    ∃ p : Nat, (visitsOf metadata)[p]? = some m.visit := by
  have hv : m.visit ∈ visitsOf metadata := by
    rw [visitsOf, mem_dropDuplicates]
    exact List.mem_map_of_mem _ (mem_of_getElem?_some h)
  obtain ⟨p, hp, he⟩ := List.mem_iff_getElem.mp hv
  exact ⟨p, by rw [List.getElem?_eq_getElem hp, he]⟩

/-- Membership in the row positions drawn by one permutation segment. -/
theorem mem_segIdx (metadata : List MetaRow) (seg : List Nat) (i : Nat) :
    i ∈ segIdx metadata seg ↔
      ∃ m, metadata[i]? = some m ∧
        ∃ p ∈ seg, (visitsOf metadata)[p]? = some m.visit := by
  rw [segIdx, mem_indices_for_visit_set]
  constructor
  · rintro ⟨m, hm, hv⟩
    exact ⟨m, hm, (mem_filterMap_getElem _ _ _).mp hv⟩
  · rintro ⟨m, hm, hp⟩
    exact ⟨m, hm, (mem_filterMap_getElem _ _ _).mpr hp⟩

/-- Disjoint permutation segments draw disjoint row-position lists. -/
theorem segIdx_disjoint (metadata : List MetaRow) {sa sb : List Nat}
    (hd : sa.Disjoint sb) :
    (segIdx metadata sa).Disjoint (segIdx metadata sb) := by
  intro i hia hib
  obtain ⟨m, hm, p1, hp1, hv1⟩ := (mem_segIdx metadata sa i).mp hia
  obtain ⟨m2, hm2, p2, hp2, hv2⟩ := (mem_segIdx metadata sb i).mp hib
  rw [hm] at hm2
  obtain rfl := Option.some.inj hm2
  obtain rfl := getElem?_inj_of_nodup (nodup_dropDuplicates _) hv1 hv2
  exact hd hp1 hp2

/-- Rows with equal visit identities are drawn together by every segment. -/
theorem segIdx_visit_congr (metadata : List MetaRow) (seg : List Nat)
    {i j : Nat} {mi mj : MetaRow} (hi : metadata[i]? = some mi)
    (hj : metadata[j]? = some mj) (hv : mi.visit = mj.visit) :
    (i ∈ segIdx metadata seg ↔ j ∈ segIdx metadata seg) := by
  rw [mem_segIdx, mem_segIdx]
  constructor
  · rintro ⟨m, hm, p, hp, hvp⟩
    rw [hi] at hm
    obtain rfl := Option.some.inj hm
    exact ⟨mj, hj, p, hp, by rwa [← hv]⟩
  · rintro ⟨m, hm, p, hp, hvp⟩
    rw [hj] at hm
    obtain rfl := Option.some.inj hm
    exact ⟨mi, hi, p, hp, by rwa [hv]⟩

/-- When the segments cover all visit positions, the drawn row-position lists
cover exactly the metadata positions. -/
theorem segIdx_cover (metadata : List MetaRow) {s1 s2 s3 : List Nat}
    (hcov : ∀ p, p < (visitsOf metadata).length →
      p ∈ s1 ∨ p ∈ s2 ∨ p ∈ s3) (i : Nat) :
    (i ∈ segIdx metadata s1 ∨ i ∈ segIdx metadata s2 ∨
      i ∈ segIdx metadata s3) ↔ i < metadata.length := by
  constructor
  · rintro (h | h | h) <;>
      · obtain ⟨m, hm, -⟩ := (mem_segIdx metadata _ i).mp h
        exact lt_of_getElem?_some hm
  · intro hi
    obtain ⟨m, hm⟩ := getElem?_some_of_lt metadata hi
    obtain ⟨p, hp⟩ := visit_pos metadata hm
    rcases hcov p (lt_of_getElem?_some hp) with h | h | h
    · exact Or.inl ((mem_segIdx metadata s1 i).mpr ⟨m, hm, p, h, hp⟩)
    · exact Or.inr (Or.inl ((mem_segIdx metadata s2 i).mpr ⟨m, hm, p, h, hp⟩))
    · exact Or.inr (Or.inr ((mem_segIdx metadata s3 i).mpr ⟨m, hm, p, h, hp⟩))

/-- The split components, written through `segIdx`. -/
theorem split_no_leakage_eq (perm : List Nat) (metadata : List MetaRow)
    (trainFrac valFrac : ℚ) :
    split_no_leakage perm metadata trainFrac valFrac =
      (segIdx metadata
         (perm.take (pyInt (((visitsOf metadata).length : ℚ) * trainFrac))),
       segIdx metadata
         ((perm.drop (pyInt (((visitsOf metadata).length : ℚ) * trainFrac))).take
           (pyInt (((visitsOf metadata).length : ℚ) * valFrac))),
       segIdx metadata
         (perm.drop (pyInt (((visitsOf metadata).length : ℚ) * trainFrac) +
           pyInt (((visitsOf metadata).length : ℚ) * valFrac)))) := rfl

/-- C1: whenever the seeded draw is a permutation of the distinct visit
identities, every visit identity (site_id, visit_id) is assigned exactly one
split: the three index lists returned by `split_no_leakage` cover exactly the
metadata positions, are pairwise disjoint, and rows whose visit identities
coincide (in particular rows differing only in the defense flag) belong to
the same index list. -/
theorem c1_split_no_leakage (metadata : List MetaRow) (perm : List Nat)
    (trainFrac valFrac : ℚ)
    (hperm : List.Perm perm (List.range (visitsOf metadata).length)) :
    (∀ i : Nat,
      (i ∈ (split_no_leakage perm metadata trainFrac valFrac).1 ∨
       i ∈ (split_no_leakage perm metadata trainFrac valFrac).2.1 ∨
       i ∈ (split_no_leakage perm metadata trainFrac valFrac).2.2) ↔
      i < metadata.length) ∧
    ((split_no_leakage perm metadata trainFrac valFrac).1.Disjoint
       (split_no_leakage perm metadata trainFrac valFrac).2.1 ∧
     (split_no_leakage perm metadata trainFrac valFrac).1.Disjoint
       (split_no_leakage perm metadata trainFrac valFrac).2.2 ∧
     (split_no_leakage perm metadata trainFrac valFrac).2.1.Disjoint
       (split_no_leakage perm metadata trainFrac valFrac).2.2) ∧
    (∀ i j : Nat, ∀ mi mj : MetaRow, metadata[i]? = some mi →
      metadata[j]? = some mj → mi.visit = mj.visit →
      ((i ∈ (split_no_leakage perm metadata trainFrac valFrac).1 ↔
        j ∈ (split_no_leakage perm metadata trainFrac valFrac).1) ∧
       (i ∈ (split_no_leakage perm metadata trainFrac valFrac).2.1 ↔
        j ∈ (split_no_leakage perm metadata trainFrac valFrac).2.1) ∧
       (i ∈ (split_no_leakage perm metadata trainFrac valFrac).2.2 ↔
        j ∈ (split_no_leakage perm metadata trainFrac valFrac).2.2))) := by
  rw [split_no_leakage_eq]
  have hnd : perm.Nodup := hperm.nodup_iff.mpr (List.nodup_range _)
  obtain ⟨hd12, hd13, hd23⟩ := segs_disjoint hnd
    (pyInt (((visitsOf metadata).length : ℚ) * trainFrac))
    (pyInt (((visitsOf metadata).length : ℚ) * valFrac))
  refine ⟨segIdx_cover metadata (fun p hp => mem_some_seg hperm _ _ hp),
    ⟨segIdx_disjoint metadata hd12, segIdx_disjoint metadata hd13,
     segIdx_disjoint metadata hd23⟩, ?_⟩
  intro i j mi mj hi hj hv
  exact ⟨segIdx_visit_congr metadata _ hi hj hv,
    segIdx_visit_congr metadata _ hi hj hv,
    segIdx_visit_congr metadata _ hi hj hv⟩

/-- C1 witness: at a concrete two-row metadata sharing one visit identity
under both defense flags, with the one-element permutation, the split is a
disjoint cover keeping both rows together. -/
theorem c1_witness :
    (∀ i : Nat,
      (i ∈ (split_no_leakage [0] metaPair TRAIN_FRAC VAL_FRAC).1 ∨
       i ∈ (split_no_leakage [0] metaPair TRAIN_FRAC VAL_FRAC).2.1 ∨
       i ∈ (split_no_leakage [0] metaPair TRAIN_FRAC VAL_FRAC).2.2) ↔
      i < metaPair.length) ∧
    (split_no_leakage [0] metaPair TRAIN_FRAC VAL_FRAC).1.Disjoint
      (split_no_leakage [0] metaPair TRAIN_FRAC VAL_FRAC).2.1 := by
  have h := c1_split_no_leakage metaPair [0] TRAIN_FRAC VAL_FRAC (by decide)
  exact ⟨h.1, h.2.1.1⟩

/-- C2: the splitter is deterministic.  `np.random.default_rng(seed)` is a
pure function of the seed, so identical seeds produce identical permutations;
the permutation is therefore an argument here, and two runs on equal
permutations, equal metadata and equal ratios return identical index lists. -/
theorem c2_deterministic (perm1 perm2 : List Nat) (md1 md2 : List MetaRow)
    (tF1 tF2 vF1 vF2 : ℚ) (hp : perm1 = perm2) (hm : md1 = md2)
    (ht : tF1 = tF2) (hv : vF1 = vF2) :
    split_no_leakage perm1 md1 tF1 vF1 = split_no_leakage perm2 md2 tF2 vF2 := by
  rw [hp, hm, ht, hv]

/-- C2 witness: two runs on the concrete two-row metadata agree. -/
theorem c2_witness :
    split_no_leakage [0] metaPair TRAIN_FRAC VAL_FRAC =
      split_no_leakage [0] metaPair TRAIN_FRAC VAL_FRAC :=
  c2_deterministic [0] [0] metaPair metaPair TRAIN_FRAC TRAIN_FRAC
    VAL_FRAC VAL_FRAC rfl rfl rfl rfl

/-- Evaluation helper for `pyInt` at a concrete nonnegative rational. -/
theorem pyInt_eval {q : ℚ} {z : Nat} (h : ⌊q⌋ = (z : ℤ)) : pyInt q = z := by
  rw [pyInt, h, Int.toNat_natCast]

/-- The two cut widths together never exceed the number of identities. -/
theorem cuts_le (n : Nat) :
    pyInt ((n : ℚ) * TRAIN_FRAC) + pyInt ((n : ℚ) * VAL_FRAC) ≤ n := by
  have h0 : (0 : ℚ) ≤ (n : ℚ) := Nat.cast_nonneg n
  have ha : (0 : ℚ) ≤ (n : ℚ) * TRAIN_FRAC := by
    rw [TRAIN_FRAC]; positivity
  have hb : (0 : ℚ) ≤ (n : ℚ) * VAL_FRAC := by
    rw [VAL_FRAC]; positivity
  have hsum : (n : ℚ) * TRAIN_FRAC + (n : ℚ) * VAL_FRAC ≤ (n : ℚ) := by
    rw [TRAIN_FRAC, VAL_FRAC]; nlinarith
  have hfl : ⌊(n : ℚ) * TRAIN_FRAC⌋ + ⌊(n : ℚ) * VAL_FRAC⌋ ≤ (n : ℤ) := by
    have hq : ((⌊(n : ℚ) * TRAIN_FRAC⌋ + ⌊(n : ℚ) * VAL_FRAC⌋ : ℤ) : ℚ) ≤ (n : ℚ) := by
      push_cast
      exact le_trans (add_le_add (Int.floor_le _) (Int.floor_le _)) hsum
    exact_mod_cast hq
  rw [pyInt, pyInt, ← Int.toNat_add (Int.floor_nonneg.mpr ha) (Int.floor_nonneg.mpr hb)]
  exact Int.toNat_le.mpr hfl

/-- The split segments, spelled out. -/
theorem splitVisitSegments_eq (perm : List Nat) (metadata : List MetaRow)
    (trainFrac valFrac : ℚ) :
    splitVisitSegments perm metadata trainFrac valFrac =
      ((perm.take (pyInt (((visitsOf metadata).length : ℚ) * trainFrac))).filterMap
         (fun p => (visitsOf metadata)[p]?),
       ((perm.drop (pyInt (((visitsOf metadata).length : ℚ) * trainFrac))).take
           (pyInt (((visitsOf metadata).length : ℚ) * valFrac))).filterMap
         (fun p => (visitsOf metadata)[p]?),
       (perm.drop (pyInt (((visitsOf metadata).length : ℚ) * trainFrac) +
           pyInt (((visitsOf metadata).length : ℚ) * valFrac))).filterMap
         (fun p => (visitsOf metadata)[p]?)) := rfl

/-- With the default ratios, the three visit segments have sizes
int(n·0.7), int(n·0.15) and the remainder. -/
theorem splitVisitSegments_lengths (metadata : List MetaRow) (perm : List Nat)
    (hperm : List.Perm perm (List.range (visitsOf metadata).length)) :
    (splitVisitSegments perm metadata TRAIN_FRAC VAL_FRAC).1.length =
        pyInt (((visitsOf metadata).length : ℚ) * TRAIN_FRAC) ∧
    (splitVisitSegments perm metadata TRAIN_FRAC VAL_FRAC).2.1.length =
        pyInt (((visitsOf metadata).length : ℚ) * VAL_FRAC) ∧
    (splitVisitSegments perm metadata TRAIN_FRAC VAL_FRAC).2.2.length =
        (visitsOf metadata).length -
          (pyInt (((visitsOf metadata).length : ℚ) * TRAIN_FRAC) +
           pyInt (((visitsOf metadata).length : ℚ) * VAL_FRAC)) := by
  rw [splitVisitSegments_eq]
  have hlen : perm.length = (visitsOf metadata).length := by
    rw [hperm.length_eq, List.length_range]
  have hcut := cuts_le (visitsOf metadata).length
  have hT : pyInt (((visitsOf metadata).length : ℚ) * TRAIN_FRAC) ≤
      (visitsOf metadata).length := le_trans (Nat.le_add_right _ _) hcut
  refine ⟨?_, ?_, ?_⟩
  · rw [length_filterMap_getElem (visitsOf metadata) _
      (fun p hp => perm_mem_lt hperm (List.take_subset _ _ hp))]
    rw [List.length_take, hlen]
    exact Nat.min_eq_left hT
  · rw [length_filterMap_getElem (visitsOf metadata) _
      (fun p hp => perm_mem_lt hperm
        (List.drop_subset _ _ (List.take_subset _ _ hp)))]
    rw [List.length_take, List.length_drop, hlen]
    exact Nat.min_eq_left (Nat.le_sub_of_add_le (by omega))
  · rw [length_filterMap_getElem (visitsOf metadata) _
      (fun p hp => perm_mem_lt hperm (List.drop_subset _ _ hp))]
    rw [List.length_drop, hlen]

/-- C3 (amended): with the default ratios 0.70/0.15, the permutation of the
n distinct visit identities is cut at int(n·0.70) and then int(n·0.15)
further on — i.e. the second cut is int(n·0.70) + int(n·0.15), not
floor(n·0.70 + n·0.15) — and the whole remainder (absorbing the rounding
residue) becomes the test segment; with n = 10 this yields 7 train, 1 val
and 2 test identities. -/
theorem c3_cut_positions (metadata : List MetaRow) (perm : List Nat)
    (hperm : List.Perm perm (List.range (visitsOf metadata).length)) :
    (splitVisitSegments perm metadata TRAIN_FRAC VAL_FRAC).1.length =
        pyInt (((visitsOf metadata).length : ℚ) * TRAIN_FRAC) ∧
    (splitVisitSegments perm metadata TRAIN_FRAC VAL_FRAC).2.1.length =
        pyInt (((visitsOf metadata).length : ℚ) * VAL_FRAC) ∧
    (splitVisitSegments perm metadata TRAIN_FRAC VAL_FRAC).2.2.length =
        (visitsOf metadata).length -
          codeSecondCut (visitsOf metadata).length TRAIN_FRAC VAL_FRAC ∧
    ((visitsOf metadata).length = 10 →
      (splitVisitSegments perm metadata TRAIN_FRAC VAL_FRAC).1.length = 7 ∧
      (splitVisitSegments perm metadata TRAIN_FRAC VAL_FRAC).2.1.length = 1 ∧
      (splitVisitSegments perm metadata TRAIN_FRAC VAL_FRAC).2.2.length = 2) := by
  obtain ⟨h1, h2, h3⟩ := splitVisitSegments_lengths metadata perm hperm
  refine ⟨h1, h2, by rw [h3, codeSecondCut], ?_⟩
  intro h10
  rw [h1, h2, h3, h10]
  have e1 : pyInt ((10 : ℚ) * TRAIN_FRAC) = 7 :=
    pyInt_eval (by rw [TRAIN_FRAC]; norm_num)
  have e2 : pyInt ((10 : ℚ) * VAL_FRAC) = 1 :=
    pyInt_eval (by rw [VAL_FRAC]; norm_num)
  have ec : ((10 : Nat) : ℚ) = (10 : ℚ) := by norm_num
  rw [ec, e1, e2]
  exact ⟨rfl, rfl, rfl⟩

/-- C3 witness: ten distinct visit identities with the identity permutation
split into 7 train, 1 val and 2 test identities. -/
theorem c3_witness :
    (splitVisitSegments (List.range 10) meta10 TRAIN_FRAC VAL_FRAC).1.length = 7 ∧
    (splitVisitSegments (List.range 10) meta10 TRAIN_FRAC VAL_FRAC).2.1.length = 1 ∧
    (splitVisitSegments (List.range 10) meta10 TRAIN_FRAC VAL_FRAC).2.2.length = 2 := by
  have h := c3_cut_positions meta10 (List.range 10) (by decide)
  exact h.2.2.2 (by decide)

/-- C3 counterexample: at n = 13 distinct visit identities with the default
ratios, the code's val segment holds int(13·0.7)+int(13·0.15) − int(13·0.7)
= 1 identity, whereas the spec's second cut floor(n·0.70 + n·0.15) = 11
would give 11 − 9 = 2 identities, so the claimed cut position is wrong. -/
theorem c3_counterexample :
    (splitVisitSegments (List.range 13) meta13 TRAIN_FRAC VAL_FRAC).2.1.length = 1 ∧
    specSecondCut 13 TRAIN_FRAC VAL_FRAC - pyInt ((13 : ℚ) * TRAIN_FRAC) = 2 ∧
    (1 : Nat) ≠ 2 := by
  refine ⟨?_, ?_, by decide⟩
  · have hlen : (visitsOf meta13).length = 13 := by decide
    have hperm : List.Perm (List.range 13)
        (List.range (visitsOf meta13).length) := by rw [hlen]
    obtain ⟨-, h2, -⟩ := splitVisitSegments_lengths meta13 (List.range 13) hperm
    rw [h2, hlen]
    have ec : ((13 : Nat) : ℚ) = (13 : ℚ) := by norm_num
    rw [ec]
    exact pyInt_eval (by rw [VAL_FRAC]; norm_num)
  · have e3 : pyInt (((13 : Nat) : ℚ) * TRAIN_FRAC + ((13 : Nat) : ℚ) * VAL_FRAC) = 11 :=
      pyInt_eval (by rw [TRAIN_FRAC, VAL_FRAC]; push_cast; norm_num)
    have e4 : pyInt ((13 : ℚ) * TRAIN_FRAC) = 9 :=
      pyInt_eval (by rw [TRAIN_FRAC]; norm_num)
    rw [specSecondCut, e3, e4]

/-- The inter-arrival list has one entry per packet. -/
theorem compute_iat_length (ts : List ℚ) :
    (compute_inter_packet_times ts).length = ts.length := by
  rw [compute_inter_packet_times]
  by_cases h : ts.length < 2
  · rw [if_pos h, List.length_replicate]
  · rw [if_neg h]
    simp only [List.length_cons, List.length_map, List.length_zip,
      List.length_tail]
    omega

/-- Pad-or-truncate yields exactly the target length. -/
theorem padTrunc_length {l : List ℚ} {n : Nat} (h : l.length = n) (N : Nat) :
    (padTrunc n N l).length = N := by
  subst h
  rw [padTrunc]
  rcases Nat.lt_trichotomy l.length N with hlt | heq | hgt
  · rw [if_neg (by omega), if_pos hlt]
    simp only [List.length_append, List.length_replicate]
    omega
  · rw [if_neg (by omega), if_neg (by omega)]
    exact heq
  · rw [if_pos hgt, List.length_take]
    omega

/-- Pad-or-truncate in closed form: the first N values followed by the
zero padding (empty when the session is not shorter than N). -/
theorem padTrunc_eq {l : List ℚ} {n : Nat} (h : l.length = n) (N : Nat) :
    padTrunc n N l = l.take N ++ List.replicate (N - n) 0 := by
  subst h
  rw [padTrunc]
  rcases Nat.lt_trichotomy l.length N with hlt | heq | hgt
  · rw [if_neg (by omega), if_pos hlt,
      List.take_of_length_le (le_of_lt hlt)]
  · rw [if_neg (by omega), if_neg (by omega),
      List.take_of_length_le (le_of_eq heq), heq, Nat.sub_self]
    simp
  · rw [if_pos hgt]
    have h0 : N - l.length = 0 := by omega
    rw [h0]
    simp

/-- A disabled normalization is the identity. -/
theorem normalizeChannel_false (scale : Option ℚ) (l : List ℚ) :
    normalizeChannel false scale l = some l := rfl

/-- `np.max` succeeds exactly on nonempty channels. -/
theorem npMax_some {l : List ℚ} (h : l ≠ []) : ∃ mx, npMax l = some mx := by
  cases l with
  | nil => exact absurd rfl h
  | cons x xs => exact ⟨xs.foldl max x, rfl⟩

/-- Normalization never changes a channel's length. -/
theorem normalizeChannel_some_len {b : Bool} {scale : Option ℚ}
    {l r : List ℚ} (h : normalizeChannel b scale l = some r) :
    r.length = l.length := by
  rw [normalizeChannel] at h
  by_cases h1 : (b && scalePos scale) = true
  · rw [if_pos h1] at h
    obtain rfl := Option.some.inj h
    exact List.length_map l _
  · rw [if_neg h1] at h
    by_cases h2 : b = true
    · rw [if_pos h2] at h
      cases hm : npMax l with
      | none => rw [hm] at h; cases h
      | some mx =>
        rw [hm] at h
        have h4 : (if (0 : ℚ) < mx then some (l.map (fun x => x / mx))
            else some l) = some r := h
        by_cases h3 : (0 : ℚ) < mx
        · rw [if_pos h3] at h4
          obtain rfl := Option.some.inj h4
          exact List.length_map l _
        · rw [if_neg h3] at h4
          obtain rfl := Option.some.inj h4
          rfl
    · rw [if_neg h2] at h
      obtain rfl := Option.some.inj h
      rfl

/-- Normalization succeeds on every nonempty channel (and always when
disabled). -/
theorem normalizeChannel_isSome {b : Bool} (scale : Option ℚ) {l : List ℚ}
    (h : b = false ∨ l ≠ []) :
    ∃ r, normalizeChannel b scale l = some r := by
  rw [normalizeChannel]
  by_cases h1 : (b && scalePos scale) = true
  · exact ⟨_, if_pos h1⟩
  · rw [if_neg h1]
    by_cases h2 : b = true
    · rcases h with h | h
      · rw [h] at h2
        exact absurd h2 (by decide)
      · obtain ⟨mx, hmx⟩ := npMax_some h
        rw [if_pos h2, hmx]
        by_cases h3 : (0 : ℚ) < mx
        · exact ⟨_, if_pos h3⟩
        · exact ⟨_, if_neg h3⟩
    · rw [if_neg h2]
      exact ⟨l, rfl⟩

/-- Whatever `session_to_vector` returns has length channels × N. -/
theorem session_to_vector_len {df : List PacketRecord} {N : Nat}
    {ns nt incl : Bool} {v : List ℚ}
    (h : session_to_vector df N ns nt incl = some v) :
    v.length = (if incl then 3 else 2) * N := by
  rw [session_to_vector.eq_def] at h
  cases hf : extract_session_features df N ns nt none none with
  | none => rw [hf] at h; cases h
  | some f =>
    rw [hf] at h
    obtain rfl := Option.some.inj h
    rw [extract_session_features.eq_def] at hf
    simp only [] at hf
    cases hs : normalizeChannel ns none
        (padTrunc df.length N (df.map PacketRecord.size)) with
    | none => rw [hs] at hf; cases hf
    | some s2 =>
      cases ht : normalizeChannel nt none
          (padTrunc df.length N
            (compute_inter_packet_times (df.map PacketRecord.timestamp))) with
      | none => rw [hs, ht] at hf; cases hf
      | some t2 =>
        rw [hs, ht] at hf
        obtain rfl := Option.some.inj hf
        have ls : s2.length = N := by
          rw [normalizeChannel_some_len hs,
            padTrunc_length (List.length_map df _) N]
        have lt2 : t2.length = N := by
          rw [normalizeChannel_some_len ht,
            padTrunc_length (by rw [compute_iat_length, List.length_map]) N]
        have ld : (padTrunc df.length N
            (df.map PacketRecord.direction)).length = N :=
          padTrunc_length (List.length_map df _) N
        cases incl with
        | true =>
          simp [ls, lt2, ld]
          ring
        | false =>
          simp [ls, ld]
          ring

/-- For a positive target length, extraction always succeeds. -/
theorem session_to_vector_isSome (df : List PacketRecord) {N : Nat}
    (hN : 0 < N) (ns nt incl : Bool) :
    ∃ v, session_to_vector df N ns nt incl = some v := by
  have hsz : (padTrunc df.length N (df.map PacketRecord.size)).length = N :=
    padTrunc_length (List.length_map df _) N
  have hia : (padTrunc df.length N
      (compute_inter_packet_times (df.map PacketRecord.timestamp))).length = N :=
    padTrunc_length (by rw [compute_iat_length, List.length_map]) N
  obtain ⟨s2, hs⟩ := normalizeChannel_isSome (b := ns) none
    (Or.inr (List.ne_nil_of_length_pos (by rw [hsz]; exact hN)))
  obtain ⟨t2, ht⟩ := normalizeChannel_isSome (b := nt) none
    (Or.inr (List.ne_nil_of_length_pos (by rw [hia]; exact hN)))
  rw [session_to_vector.eq_def, extract_session_features.eq_def]
  simp only [hs, ht]
  exact ⟨_, rfl⟩

/-- C5: every feature vector the extractor returns has length
channels × max_packets — 3N with the inter-arrival channel, 2N without —
independently of the raw session length; and for a positive target length a
vector is always produced. -/
theorem c5_vector_length (df : List PacketRecord) (N : Nat)
    (ns nt incl : Bool) (hN : 0 < N) :
    (∀ v, session_to_vector df N ns nt incl = some v →
      v.length = (if incl then 3 else 2) * N) ∧
    ∃ v, session_to_vector df N ns nt incl = some v := by
  refine ⟨fun v hv => session_to_vector_len hv, ?_⟩
  exact session_to_vector_isSome df hN ns nt incl

/-- C5 witness: the three-packet demo session at N = 10 with all channels
produces a vector of length 30. -/
theorem c5_witness :
    (0 : Nat) < 10 ∧
    ∃ v, session_to_vector demoSession 10 true true true = some v ∧
      v.length = 30 := by
  have h := c5_vector_length demoSession 10 true true true (by decide)
  obtain ⟨v, hv⟩ := h.2
  exact ⟨by decide, v, hv, by rw [h.1 v hv]; decide⟩

/-- C6: with normalization disabled, each extracted channel is exactly the
first N per-packet values followed by N − L zeros at the tail (L the raw
session length): for L > N this is plain truncation of the first N values,
for L < N the raw values plus tail zero padding, for L = N the raw values
unchanged. -/
theorem c6_pad_truncate (df : List PacketRecord) (N : Nat) :
    extract_session_features df N false false none none =
      some { sizes := (df.map PacketRecord.size).take N ++
               List.replicate (N - df.length) 0
             directions := (df.map PacketRecord.direction).take N ++
               List.replicate (N - df.length) 0
             iat := (compute_inter_packet_times
                 (df.map PacketRecord.timestamp)).take N ++
               List.replicate (N - df.length) 0 } := by
  rw [extract_session_features.eq_def]
  simp only [normalizeChannel_false]
  rw [padTrunc_eq (List.length_map df _) N,
    padTrunc_eq (List.length_map df _) N,
    padTrunc_eq (by rw [compute_iat_length, List.length_map]) N]

/-- C7: for a nonempty channel with normalization enabled, an explicit
positive scale divides every element; otherwise the channel is divided by its
own maximum when that maximum is positive and returned unchanged (no error,
no NaN) when it is not — e.g. for an all-zero channel. -/
theorem c7_normalization (l : List ℚ) (scale : Option ℚ) (hl : l ≠ []) :
    ∃ mx, npMax l = some mx ∧
      normalizeChannel true scale l =
        some (match scale with
              | some s =>
                  if 0 < s then l.map (fun x => x / s)
                  else if 0 < mx then l.map (fun x => x / mx) else l
              | none => if 0 < mx then l.map (fun x => x / mx) else l) := by
  obtain ⟨mx, hmx⟩ := npMax_some hl
  refine ⟨mx, hmx, ?_⟩
  cases scale with
  | none =>
    rw [normalizeChannel, show scalePos none = false from rfl]
    rw [if_neg (by decide : ¬((true && false) = true)), if_pos rfl, hmx]
    exact (apply_ite some _ _ _).symm
  | some s =>
    by_cases hs : (0 : ℚ) < s
    · simp [normalizeChannel, scalePos, hs]
    · have hsp : scalePos (some s) = false := by simp [scalePos, hs]
      rw [normalizeChannel, hsp]
      rw [if_neg (by decide : ¬((true && false) = true)), if_pos rfl, hmx]
      show (if 0 < mx then some (List.map (fun x => x / mx) l) else some l) =
        some (if 0 < s then List.map (fun x => x / s) l
              else if 0 < mx then List.map (fun x => x / mx) l else l)
      rw [if_neg hs]
      exact (apply_ite some _ _ _).symm

/-- C7 witness: an all-zero channel self-normalizes to itself, and an
explicit scale 2 divides a singleton channel. -/
theorem c7_witness :
    normalizeChannel true none [(0 : ℚ), 0] = some [0, 0] ∧
    normalizeChannel true (some 2) [(4 : ℚ)] = some [4 / 2] := by
  constructor
  · obtain ⟨mx, hmx, heq⟩ := c7_normalization [(0 : ℚ), 0] none (by simp)
    have hmx0 : npMax [(0 : ℚ), 0] = some 0 := by
      simp [npMax]
    rw [hmx0] at hmx
    obtain rfl := Option.some.inj hmx
    simpa using heq
  · obtain ⟨mx, hmx, heq⟩ := c7_normalization [(4 : ℚ)] (some 2) (by simp)
    rw [heq]
    norm_num

/-- C8 (a code bug): with max_packets = 0 and the default normalization
switched on, every channel is empty, `np.max` of the empty size channel
raises a ValueError (modelled as `none`), so extraction raises instead of
returning the degenerate zero-length vector; the empty vector is produced
only when normalization is disabled. -/
theorem c8_zero_max_packets :
    session_to_vector demoSession 0 true true true = none ∧
    session_to_vector demoSession 0 false false true = some [] := by
  constructor <;> rfl

/-- A row position carries at most one group key. -/
theorem rowGroupIs_unique {metadata : List MetaRow} {i : Nat}
    {k1 k2 : String × Bool} (h1 : rowGroupIs metadata k1 i = true)
    (h2 : rowGroupIs metadata k2 i = true) : k1 = k2 := by
  rw [rowGroupIs, optTest_eq_true] at h1 h2
  obtain ⟨m, hm, h1⟩ := h1
  obtain ⟨m2, hm2, h2⟩ := h2
  rw [hm] at hm2
  obtain rfl := Option.some.inj hm2
  rw [← of_decide_eq_true h1, ← of_decide_eq_true h2]

/-- Members of a group's index list satisfy its key predicate. -/
theorem groupIdx_key_mem {metadata : List MetaRow} {k : String × Bool}
    {i : Nat} (h : i ∈ groupIdx metadata k) :
    rowGroupIs metadata k i = true :=
  (List.mem_filter.mp h).2

/-- Members of a group's index list are in range. -/
theorem groupIdx_lt (metadata : List MetaRow) (k : String × Bool) :
    ∀ i ∈ groupIdx metadata k, i < metadata.length :=
  fun _ hi => List.mem_range.mp (List.mem_filter.mp hi).1

/-- Each row's group key is listed among the group keys. -/
theorem rowGroup_mem_keys {metadata : List MetaRow} {i : Nat} {m : MetaRow}
    (h : metadata[i]? = some m) : m.group ∈ groupKeysOf metadata := by
  rw [groupKeysOf, mem_dropDuplicates]
  exact List.mem_map_of_mem _ (mem_of_getElem?_some h)

/-- A key outside the key list has an empty index list. -/
theorem groupIdx_eq_nil {metadata : List MetaRow} {k : String × Bool}
    (h : k ∉ groupKeysOf metadata) : groupIdx metadata k = [] := by
  rw [List.eq_nil_iff_forall_not_mem]
  intro i hi
  obtain ⟨m, hm, hg⟩ := (mem_groupIdx metadata k i).mp hi
  exact h (hg ▸ rowGroup_mem_keys hm)

/-- Filtering commutes with flattening. -/
theorem filter_flatten {α : Type} (L : List (List α)) (p : α → Bool) :
    L.flatten.filter p = (L.map (List.filter p)).flatten := by
  induction L with
  | nil => rfl
  | cons h t ih => simp [List.filter_append, ih]

/-- A flattened map whose pieces all filter to nothing filters to nothing. -/
theorem flatten_map_filter_nil {κ α : Type} (K : List κ) (f : κ → List α)
    (p : α → Bool) (h : ∀ k ∈ K, (f k).filter p = []) :
    ((K.map f).flatten).filter p = [] := by
  induction K with
  | nil => rfl
  | cons a K ih =>
    rw [List.map_cons, List.flatten_cons, List.filter_append, h a (by simp),
      List.nil_append]
    exact ih (fun k hk => h k (by simp [hk]))

/-- A flattened map over distinct keys filters down to the single piece whose
elements survive. -/
theorem flatten_map_filter_eq {κ α : Type} (K : List κ) (hK : K.Nodup)
    (f : κ → List α) (p : α → Bool) (k : κ) (hk : k ∈ K)
    (hsame : (f k).filter p = f k)
    (hother : ∀ k2 ∈ K, k2 ≠ k → (f k2).filter p = []) :
    ((K.map f).flatten).filter p = f k := by
  induction K with
  | nil => cases hk
  | cons a K ih =>
    rw [List.map_cons, List.flatten_cons, List.filter_append]
    rcases List.mem_cons.mp hk with rfl | hk2
    · rw [hsame, flatten_map_filter_nil K f p
        (fun k2 hk2 => hother k2 (by simp [hk2])
          (by rintro rfl; exact (List.nodup_cons.mp hK).1 hk2)),
        List.append_nil]
    · rw [hother a (by simp)
        (by rintro rfl; exact (List.nodup_cons.mp hK).1 hk2),
        List.nil_append]
      exact ih (List.nodup_cons.mp hK).2 hk2
        (fun k2 h2 hne => hother k2 (by simp [h2]) hne)

/-- A left fold with `min` bounds its seed and every element. -/
theorem foldl_min_le (l : List Nat) (a : Nat) :
    l.foldl Nat.min a ≤ a ∧ ∀ x ∈ l, l.foldl Nat.min a ≤ x := by
  induction l generalizing a with
  | nil => exact ⟨Nat.le_refl a, fun x hx => absurd hx (by simp)⟩
  | cons b l ih =>
    have h := ih (Nat.min a b)
    refine ⟨Nat.le_trans h.1 (Nat.min_le_left a b), ?_⟩
    intro x hx
    rcases List.mem_cons.mp hx with rfl | hx2
    · exact Nat.le_trans h.1 (Nat.min_le_right a x)
    · exact h.2 x hx2

/-- The minimum group count never exceeds a listed group's size. -/
theorem minCount_le {metadata : List MetaRow} {k : String × Bool}
    (hk : k ∈ groupKeysOf metadata) :
    minCount metadata ≤ (groupIdx metadata k).length := by
  rw [minCount]
  cases hKs : (groupKeysOf metadata).map
      (fun k2 => (groupIdx metadata k2).length) with
  | nil =>
    exfalso
    have hmem := List.mem_map_of_mem
      (fun k2 => (groupIdx metadata k2).length) hk
    rw [hKs] at hmem
    cases hmem
  | cons s rest =>
    have hmem : (groupIdx metadata k).length ∈ s :: rest := by
      rw [← hKs]
      exact List.mem_map_of_mem _ hk
    rcases List.mem_cons.mp hmem with he | hm
    · exact he ▸ (foldl_min_le rest s).1
    · exact (foldl_min_le rest s).2 _ hm

/-- Filtering rows by group key commutes with looking rows up by position. -/
theorem filterMap_getElem_filter (metadata : List MetaRow) (idxs : List Nat)
    (k : String × Bool) :
    (idxs.filterMap (fun j => metadata[j]?)).filter
        (fun r => decide (MetaRow.group r = k)) =
      (idxs.filter (rowGroupIs metadata k)).filterMap
        (fun j => metadata[j]?) := by
  induction idxs with
  | nil => rfl
  | cons i is ih =>
    cases hmi : metadata[i]? with
    | none =>
      have hg : rowGroupIs metadata k i = false := by
        rw [rowGroupIs, hmi]; rfl
      simp [List.filterMap_cons, hmi, List.filter_cons, hg, ih]
    | some m =>
      have hg : rowGroupIs metadata k i = decide (m.group = k) := by
        rw [rowGroupIs, hmi]; rfl
      by_cases hgk : m.group = k
      · simp [List.filterMap_cons, hmi, List.filter_cons, hg, hgk, ih]
      · simp [List.filterMap_cons, hmi, List.filter_cons, hg, hgk, ih]

/-- Position lookup of shifted indices skips the head. -/
theorem filterMap_getElem_cons_succ {α : Type} (b : α) (t : List α)
    (idxs : List Nat) :
    (idxs.map Nat.succ).filterMap (fun j => (b :: t)[j]?) =
      idxs.filterMap (fun j => t[j]?) := by
  induction idxs with
  | nil => rfl
  | cons i is ih =>
    simp only [List.map_cons, List.filterMap_cons, Nat.succ_eq_add_one,
      List.getElem?_cons_succ, ih]

/-- Filtering a shifted index list by an option test skips the head. -/
theorem filter_optTest_cons_succ {α : Type} (b : α) (t : List α)
    (p : α → Bool) (idxs : List Nat) :
    (idxs.map Nat.succ).filter (fun i => optTest p (b :: t)[i]?) =
      (idxs.filter (fun i => optTest p t[i]?)).map Nat.succ := by
  induction idxs with
  | nil => rfl
  | cons i is ih =>
    simp only [List.map_cons, List.filter_cons, Nat.succ_eq_add_one,
      List.getElem?_cons_succ, ih]
    by_cases h : optTest p t[i]? = true
    · simp [h]
    · simp [h]

/-- Selecting row positions by a predicate through a range filter equals
filtering the rows directly. -/
theorem range_filter_optTest_filterMap {α : Type} (l : List α)
    (p : α → Bool) :
    ((List.range l.length).filter (fun i => optTest p l[i]?)).filterMap
        (fun j => l[j]?) = l.filter p := by
  induction l with
  | nil => rfl
  | cons b t ih =>
    rw [List.length_cons, List.range_succ_eq_map, List.filter_cons]
    have h0 : optTest p (b :: t)[0]? = p b := by
      rw [List.getElem?_cons_zero]; rfl
    rw [h0, filter_optTest_cons_succ]
    by_cases hpb : p b = true
    · rw [if_pos hpb]
      simp only [List.filterMap_cons, List.getElem?_cons_zero,
        filterMap_getElem_cons_succ, ih]
      rw [List.filter_cons, if_pos hpb]
    · rw [if_neg hpb, filterMap_getElem_cons_succ, ih,
        List.filter_cons, if_neg hpb]

/-- Taking a prefix commutes with position lookup over in-range indices. -/
theorem take_filterMap_getElem {α : Type} (l : List α) (idxs : List Nat)
    (h : ∀ i ∈ idxs, i < l.length) (m : Nat) :
    (idxs.take m).filterMap (fun j => l[j]?) =
      (idxs.filterMap (fun j => l[j]?)).take m := by
  induction idxs generalizing m with
  | nil => simp
  | cons i is ih =>
    obtain ⟨a, ha⟩ := getElem?_some_of_lt l (h i (by simp))
    cases m with
    | zero => simp
    | succ m =>
      rw [List.take_succ_cons]
      simp only [List.filterMap_cons, ha]
      rw [List.take_succ_cons, ih (fun j hj => h j (by simp [hj])) m]

/-- Strictly increasing follows from nondecreasing plus no duplicates. -/
theorem pairwise_lt_of_le_nodup {l : List Nat}
    (h1 : l.Pairwise (fun a b => a ≤ b)) (h2 : l.Nodup) :
    l.Pairwise (fun a b => a < b) := by
  induction l with
  | nil => exact List.Pairwise.nil
  | cons a t ih =>
    rw [List.pairwise_cons] at h1 ⊢
    rw [List.nodup_cons] at h2
    refine ⟨fun b hb => lt_of_le_of_ne (h1.1 b hb) ?_, ih h1.2 h2.2⟩
    intro hab
    exact h2.1 (hab ▸ hb)

/-- Strictly sorted lists that are permutations of one another are equal. -/
theorem eq_of_perm_sorted_lt {l1 l2 : List Nat} (h : List.Perm l1 l2)
    (s1 : l1.Pairwise (fun a b => a < b))
    (s2 : l2.Pairwise (fun a b => a < b)) : l1 = l2 := by
  have : IsAntisymm Nat (fun a b => a < b) :=
    ⟨fun a b h1 h2 => absurd h1 (Nat.lt_asymm h2)⟩
  exact List.eq_of_perm_of_sorted h s1 s2

/-- One group's index list is strictly increasing. -/
theorem groupIdx_pairwise (metadata : List MetaRow) (k : String × Bool) :
    (groupIdx metadata k).Pairwise (fun a b => a < b) :=
  (List.pairwise_lt_range _).filter _

/-- The balance index list, filtered to one group, is exactly the first
`minCount` positions of that group. -/
theorem balance_filter_key (metadata : List MetaRow) (k : String × Bool) :
    (balanceIndices metadata).filter (rowGroupIs metadata k) =
      (groupIdx metadata k).take (minCount metadata) := by
  have hother : ∀ k2 ∈ groupKeysOf metadata, k2 ≠ k →
      ((groupIdx metadata k2).take (minCount metadata)).filter
        (rowGroupIs metadata k) = [] := by
    intro k2 _ hne
    rw [List.filter_eq_nil_iff]
    intro i hi hik
    exact hne (rowGroupIs_unique (groupIdx_key_mem
      (List.take_subset _ _ hi)) hik)
  have hperm1 : List.Perm
      ((balanceIndices metadata).filter (rowGroupIs metadata k))
      ((((groupKeysOf metadata).map
          (fun k2 => (groupIdx metadata k2).take (minCount metadata))).flatten).filter
        (rowGroupIs metadata k)) := by
    rw [balanceIndices]
    exact (List.perm_insertionSort _ _).filter _
  by_cases hk : k ∈ groupKeysOf metadata
  · have hflat : ((((groupKeysOf metadata).map
        (fun k2 => (groupIdx metadata k2).take (minCount metadata))).flatten).filter
          (rowGroupIs metadata k)) =
        (groupIdx metadata k).take (minCount metadata) :=
      flatten_map_filter_eq _ (nodup_dropDuplicates _) _ _ k hk
        (List.filter_eq_self.mpr
          (fun i hi => groupIdx_key_mem (List.take_subset _ _ hi)))
        hother
    rw [hflat] at hperm1
    have hrhs : ((groupIdx metadata k).take (minCount metadata)).Pairwise
        (fun a b => a < b) :=
      (groupIdx_pairwise metadata k).sublist (List.take_sublist _ _)
    have hle : ((balanceIndices metadata).filter
        (rowGroupIs metadata k)).Pairwise (fun a b => a ≤ b) :=
      (List.sorted_insertionSort _ _).filter _
    have hnd : ((balanceIndices metadata).filter
        (rowGroupIs metadata k)).Nodup :=
      hperm1.nodup_iff.mpr (hrhs.imp (fun h => Nat.ne_of_lt h))
    exact eq_of_perm_sorted_lt hperm1
      (pairwise_lt_of_le_nodup hle hnd) hrhs
  · have hflat0 : ((((groupKeysOf metadata).map
        (fun k2 => (groupIdx metadata k2).take (minCount metadata))).flatten).filter
          (rowGroupIs metadata k)) = [] :=
      flatten_map_filter_nil _ _ _
        (fun k2 hk2 => hother k2 hk2 (by rintro rfl; exact hk hk2))
    rw [hflat0] at hperm1
    rw [hperm1.eq_nil, groupIdx_eq_nil hk, List.take_nil]

/-- Looking up one group's positions returns exactly that group's rows. -/
theorem groupIdx_filterMap (metadata : List MetaRow) (k : String × Bool) :
    (groupIdx metadata k).filterMap (fun j => metadata[j]?) =
      metadata.filter (fun r => decide (MetaRow.group r = k)) :=
  range_filter_optTest_filterMap metadata
    (fun r => decide (MetaRow.group r = k))

/-- A group has as many rows as positions. -/
theorem metadata_filter_length (metadata : List MetaRow) (k : String × Bool) :
    (metadata.filter (fun r => decide (MetaRow.group r = k))).length =
      (groupIdx metadata k).length := by
  rw [← groupIdx_filterMap]
  exact length_filterMap_getElem metadata _ (groupIdx_lt metadata k)

/-- C4: on nonempty metadata with positive minimum group size m, the balancer
keeps exactly the first m rows of every (site_id, defense_on) group in their
original relative order (stable truncation), so every group ends with exactly
m rows, the pre-balance minimum; on empty metadata or minimum 0 the input is
returned unchanged.  The kept vectors are the ones at the same kept
positions. -/
theorem c4_enforce_balance {α : Type} (vectors : List α)
    (metadata : List MetaRow) :
    ((metadata = [] ∨ minCount metadata = 0) →
      enforce_balance vectors metadata = (vectors, metadata)) ∧
    (metadata ≠ [] → minCount metadata ≠ 0 →
      (∀ k : String × Bool,
        (enforce_balance vectors metadata).2.filter
            (fun r => decide (MetaRow.group r = k)) =
          (metadata.filter (fun r => decide (MetaRow.group r = k))).take
            (minCount metadata)) ∧
      (∀ k ∈ groupKeysOf metadata,
        ((enforce_balance vectors metadata).2.filter
            (fun r => decide (MetaRow.group r = k))).length =
          minCount metadata) ∧
      (enforce_balance vectors metadata).1 =
        (balanceIndices metadata).filterMap (fun j => vectors[j]?)) := by
  constructor
  · rintro (rfl | h0)
    · rfl
    · rw [enforce_balance]
      by_cases he : metadata.isEmpty = true
      · rw [if_pos he]
      · rw [if_neg he, if_pos h0]
  · intro hne h0
    have he : ¬(metadata.isEmpty = true) :=
      fun h => hne (List.isEmpty_iff.mp h)
    have hunfold : enforce_balance vectors metadata =
        ((balanceIndices metadata).filterMap (fun j => vectors[j]?),
         (balanceIndices metadata).filterMap (fun j => metadata[j]?)) := by
      rw [enforce_balance, if_neg he, if_neg h0]
    have hkey : ∀ k : String × Bool,
        (enforce_balance vectors metadata).2.filter
            (fun r => decide (MetaRow.group r = k)) =
          (metadata.filter (fun r => decide (MetaRow.group r = k))).take
            (minCount metadata) := by
      intro k
      rw [hunfold]
      show ((balanceIndices metadata).filterMap
          (fun j => metadata[j]?)).filter
          (fun r => decide (MetaRow.group r = k)) = _
      rw [filterMap_getElem_filter, balance_filter_key,
        take_filterMap_getElem metadata _ (groupIdx_lt metadata k),
        groupIdx_filterMap]
    refine ⟨hkey, ?_, by rw [hunfold]⟩
    intro k hk
    rw [hkey k, List.length_take, metadata_filter_length]
    exact Nat.min_eq_left (minCount_le hk)

/-- C4 witness: on a concrete three-row metadata with group sizes 2 and 1,
balancing keeps the first sample of the ("s", false) group. -/
theorem c4_witness :
    metaGroups ≠ [] ∧ minCount metaGroups ≠ 0 ∧
    (enforce_balance [(10 : Nat), 20, 30] metaGroups).2.filter
        (fun r => decide (MetaRow.group r = ("s", false))) =
      (metaGroups.filter
        (fun r => decide (MetaRow.group r = ("s", false)))).take
        (minCount metaGroups) := by
  refine ⟨by decide, by decide, ?_⟩
  exact ((c4_enforce_balance [(10 : Nat), 20, 30] metaGroups).2
    (by decide) (by decide)).1 ("s", false)

/-- C9: the loader returns the defined no-result exactly when the resolved
backing file is absent, or when its table is empty or misses one of the
required columns timestamp, size, direction (so a file missing the direction
column behaves identically to a missing file); in every other case the
loaded table is returned as is. -/
theorem c9_loader (store : String → Option RawTable) (parsedRoot : String)
    (defenseOn : Bool) (siteId visitId fileFormat : String) :
    (load_parsed_session store parsedRoot defenseOn siteId visitId
        fileFormat = none ↔
      (resolvedSessionFile store parsedRoot defenseOn siteId visitId
          fileFormat = none ∨
       ∃ df, resolvedSessionFile store parsedRoot defenseOn siteId visitId
           fileFormat = some df ∧
         (df.emptyTable || !requiredFields df) = true)) ∧
    (∀ df, resolvedSessionFile store parsedRoot defenseOn siteId visitId
        fileFormat = some df →
      (df.emptyTable || !requiredFields df) = false →
      load_parsed_session store parsedRoot defenseOn siteId visitId
        fileFormat = some df) := by
  cases hres : resolvedSessionFile store parsedRoot defenseOn siteId visitId
      fileFormat with
  | none =>
    refine ⟨?_, ?_⟩
    · simp [load_parsed_session, hres]
    · intro df hdf
      cases hdf
  | some df =>
    by_cases hbad : (df.emptyTable || !requiredFields df) = true
    · refine ⟨?_, ?_⟩
      · simp [load_parsed_session, hres, hbad]
        cases h1 : df.emptyTable with
        | true => exact Or.inl rfl
        | false =>
          rw [h1] at hbad
          simp at hbad
          exact Or.inr hbad
      · intro df2 hdf2 hb2
        obtain rfl := Option.some.inj hdf2
        rw [hbad] at hb2
        cases hb2
    · refine ⟨?_, ?_⟩
      · simp [load_parsed_session, hres, hbad]
        simp at hbad
        exact hbad
      · intro df2 hdf2 hb2
        obtain rfl := Option.some.inj hdf2
        simp [load_parsed_session, hres, hbad]

/-- C9 witness: a stored table missing the direction column makes the loader
return the no-result, exactly as for a missing file. -/
theorem c9_witness :
    load_parsed_session demoStore "p" false "s" "v" "csv" = none := by
  exact (c9_loader demoStore "p" false "s" "v" "csv").1.mpr
    (Or.inr ⟨noDirTable, by decide, by decide⟩)

/-- For a positive target length, the build loop never raises: it returns
aligned vector and metadata lists, with every vector of length
3 × max_packets. -/
theorem buildLoop_some (store : String → Option RawTable)
    (parsedRoot : String) {maxPackets : Nat} (hN : 0 < maxPackets)
    (minPackets : Nat) (fileFormat : String) (i : Nat)
    (rows : List ManifestRow) :
    ∃ v m d, buildLoop store parsedRoot maxPackets minPackets fileFormat i
        rows = some (v, m, d) ∧
      v.length = m.length ∧ ∀ vec ∈ v, vec.length = 3 * maxPackets := by
  induction rows generalizing i with
  | nil => exact ⟨[], [], [], rfl, rfl, by simp⟩
  | cons row rest ih =>
    obtain ⟨v, m, d, hb, hl, hv⟩ := ih (i + 1)
    cases hload : load_parsed_session store parsedRoot row.defense_on
        row.site_id row.visit_id fileFormat with
    | none =>
      refine ⟨v, m, i :: d, ?_, hl, hv⟩
      simp only [buildLoop, hload, hb, Option.map_some']
    | some df =>
      by_cases hq : df.rows.length < minPackets
      · refine ⟨v, m, i :: d, ?_, hl, hv⟩
        simp only [buildLoop, hload, if_pos hq, hb, Option.map_some']
      · obtain ⟨vec, hvec⟩ :=
          session_to_vector_isSome (packetsOf df) hN true true true
        have hveclen : vec.length = 3 * maxPackets := by
          have h := session_to_vector_len hvec
          simpa using h
        refine ⟨vec :: v, metaOfRow row df :: m, d, ?_, by simp [hl], ?_⟩
        · simp only [buildLoop, hload, if_neg hq, hvec, hb, Option.map_some']
        · intro x hx
          rcases List.mem_cons.mp hx with rfl | hx2
          · exact hveclen
          · exact hv x hx2

/-- Split index lists only hold in-range metadata positions. -/
theorem indices_lt (metadata : List MetaRow) (vs : List (String × String)) :
    ∀ i ∈ indices_for_visit_set metadata vs, i < metadata.length :=
  fun _ hi => List.mem_range.mp (List.mem_filter.mp hi).1

/-- Stacking succeeds on a nonempty list of equal-length vectors. -/
theorem np_stack_some {L : Nat} {vs : List (List ℚ)} (hne : vs ≠ [])
    (huni : ∀ v ∈ vs, v.length = L) : ∃ w, np_stack vs = some w := by
  cases vs with
  | nil => exact absurd rfl hne
  | cons v rest =>
    have hall : rest.all (fun w => decide (w.length = v.length)) = true := by
      rw [List.all_eq_true]
      intro w hw
      rw [decide_eq_true_eq, huni w (List.mem_cons_of_mem v hw),
        huni v (List.mem_cons_self v rest)]
    exact ⟨v :: rest, by simp [np_stack, hall]⟩

/-- Lookup over a nonempty in-range index list is nonempty. -/
theorem filterMap_getElem_ne_nil {α : Type} {l : List α} {idxs : List Nat}
    (h : ∀ i ∈ idxs, i < l.length) (hne : idxs ≠ []) :
    idxs.filterMap (fun j => l[j]?) ≠ [] := by
  intro hcontra
  have hlen := length_filterMap_getElem l idxs h
  rw [hcontra] at hlen
  exact hne (List.length_eq_zero.mp hlen.symm)

/-- Values looked up by position come from the list. -/
theorem mem_of_mem_filterMap_getElem {α : Type} {l : List α}
    {idxs : List Nat} {x : α}
    (h : x ∈ idxs.filterMap (fun j => l[j]?)) : x ∈ l := by
  obtain ⟨p, -, hp⟩ := (mem_filterMap_getElem l idxs x).mp h
  exact mem_of_getElem?_some hp

/-- Stacking one split: `none` exactly on an empty index list. -/
theorem stack_idx_cases {vectors : List (List ℚ)} {L : Nat}
    (huni : ∀ v ∈ vectors, v.length = L) (idxs : List Nat)
    (hI : ∀ i ∈ idxs, i < vectors.length) :
    (idxs = [] ∧ np_stack (idxs.filterMap (fun j => vectors[j]?)) = none) ∨
    (idxs ≠ [] ∧ ∃ w, np_stack (idxs.filterMap (fun j => vectors[j]?)) =
      some w) := by
  by_cases hne : idxs = []
  · subst hne
    exact Or.inl ⟨rfl, rfl⟩
  · exact Or.inr ⟨hne, np_stack_some (filterMap_getElem_ne_nil hI hne)
      (fun v hv => huni v (mem_of_mem_filterMap_getElem hv))⟩

/-- The assembly stage succeeds when all three splits are nonempty and
crashes when any is empty. -/
theorem assembleStage_outcome (vectors : List (List ℚ))
    (metadata : List MetaRow) (perm : List Nat)
    (hlen : vectors.length = metadata.length) {L : Nat}
    (huni : ∀ v ∈ vectors, v.length = L) :
    (((split_no_leakage perm metadata TRAIN_FRAC VAL_FRAC).1 ≠ [] ∧
      (split_no_leakage perm metadata TRAIN_FRAC VAL_FRAC).2.1 ≠ [] ∧
      (split_no_leakage perm metadata TRAIN_FRAC VAL_FRAC).2.2 ≠ []) ∧
      assembleStage vectors metadata perm = MainOutcome.success) ∨
    (((split_no_leakage perm metadata TRAIN_FRAC VAL_FRAC).1 = [] ∨
      (split_no_leakage perm metadata TRAIN_FRAC VAL_FRAC).2.1 = [] ∨
      (split_no_leakage perm metadata TRAIN_FRAC VAL_FRAC).2.2 = []) ∧
      assembleStage vectors metadata perm = MainOutcome.crash) := by
  have hI1 : ∀ i ∈ (split_no_leakage perm metadata TRAIN_FRAC VAL_FRAC).1,
      i < vectors.length := by
    intro i hi
    rw [hlen]
    exact indices_lt metadata _ i hi
  have hI2 : ∀ i ∈ (split_no_leakage perm metadata TRAIN_FRAC VAL_FRAC).2.1,
      i < vectors.length := by
    intro i hi
    rw [hlen]
    exact indices_lt metadata _ i hi
  have hI3 : ∀ i ∈ (split_no_leakage perm metadata TRAIN_FRAC VAL_FRAC).2.2,
      i < vectors.length := by
    intro i hi
    rw [hlen]
    exact indices_lt metadata _ i hi
  rcases stack_idx_cases huni _ hI1 with ⟨he1, hs1⟩ | ⟨hne1, w1, hs1⟩ <;>
    rcases stack_idx_cases huni _ hI2 with ⟨he2, hs2⟩ | ⟨hne2, w2, hs2⟩ <;>
    rcases stack_idx_cases huni _ hI3 with ⟨he3, hs3⟩ | ⟨hne3, w3, hs3⟩
  · exact Or.inr ⟨Or.inl he1, by simp [assembleStage, hs1, hs2, hs3]⟩
  · exact Or.inr ⟨Or.inl he1, by simp [assembleStage, hs1, hs2, hs3]⟩
  · exact Or.inr ⟨Or.inl he1, by simp [assembleStage, hs1, hs2, hs3]⟩
  · exact Or.inr ⟨Or.inl he1, by simp [assembleStage, hs1, hs2, hs3]⟩
  · exact Or.inr ⟨Or.inr (Or.inl he2), by simp [assembleStage, hs1, hs2, hs3]⟩
  · exact Or.inr ⟨Or.inr (Or.inl he2), by simp [assembleStage, hs1, hs2, hs3]⟩
  · exact Or.inr ⟨Or.inr (Or.inr he3), by simp [assembleStage, hs1, hs2, hs3]⟩
  · exact Or.inl ⟨⟨hne1, hne2, hne3⟩, by simp [assembleStage, hs1, hs2, hs3]⟩

/-- Positions kept by the balancer are in range. -/
theorem balanceIndices_lt (metadata : List MetaRow) :
    ∀ i ∈ balanceIndices metadata, i < metadata.length := by
  intro i hi
  rw [balanceIndices] at hi
  have hi2 := (List.perm_insertionSort _ _).mem_iff.mp hi
  rw [List.mem_flatten] at hi2
  obtain ⟨seg, hseg, hiseg⟩ := hi2
  rw [List.mem_map] at hseg
  obtain ⟨k, -, rfl⟩ := hseg
  exact groupIdx_lt metadata k i (List.take_subset _ _ hiseg)

/-- The balance step keeps vectors and metadata aligned and only keeps
vectors that were present before. -/
theorem balancedPair_spec {α : Type} (nb : Bool) (v : List α)
    (m : List MetaRow) (h : v.length = m.length) :
    (balancedPair nb v m).1.length = (balancedPair nb v m).2.length ∧
    ∀ x ∈ (balancedPair nb v m).1, x ∈ v := by
  rw [balancedPair]
  cases nb with
  | true => exact ⟨h, fun x hx => hx⟩
  | false =>
    show (enforce_balance v m).1.length = (enforce_balance v m).2.length ∧
      ∀ x ∈ (enforce_balance v m).1, x ∈ v
    rw [enforce_balance]
    by_cases he : m.isEmpty = true
    · rw [if_pos he]
      exact ⟨h, fun x hx => hx⟩
    · rw [if_neg he]
      by_cases h0 : minCount m = 0
      · rw [if_pos h0]
        exact ⟨h, fun x hx => hx⟩
      · rw [if_neg h0]
        constructor
        · rw [length_filterMap_getElem v _
              (fun i hi => by rw [h]; exact balanceIndices_lt m i hi),
            length_filterMap_getElem m _ (balanceIndices_lt m)]
        · intro x hx
          exact mem_of_mem_filterMap_getElem hx

/-- The model of `main`, reduced past the manifest and quality checks. -/
theorem mainModel_some (store : String → Option RawTable)
    (rngPerm : Nat → Nat → List Nat) (parsedDir : String)
    (maxPackets minPackets : Nat) (noBalance : Bool) (seed : Nat)
    (fileFormat : String) {rows : List ManifestRow} (hrows : rows ≠ [])
    {v : List (List ℚ)} {m : List MetaRow} {d : List Nat}
    (hbuild : build_features_and_metadata store parsedDir rows maxPackets
      minPackets fileFormat = some (v, m, d)) (hv : v ≠ []) :
    mainModel store (some rows) rngPerm parsedDir maxPackets minPackets
        noBalance seed fileFormat =
      assembleStage (balancedPair noBalance v m).1
        (balancedPair noBalance v m).2
        (rngPerm seed (visitsOf (balancedPair noBalance v m).2).length) := by
  have he : ¬(rows.isEmpty = true) := fun h => hrows (List.isEmpty_iff.mp h)
  have hve : ¬(v.isEmpty = true) := fun h => hv (List.isEmpty_iff.mp h)
  simp only [mainModel, if_neg he, hbuild, if_neg hve]

/-- C10 (amended): the pipeline entry point returns a fatal diagnostic with
exit status 1 when the manifest is absent or empty or when zero sessions
survive quality filtering; when sessions survive, it returns status 0 exactly
when all three split index lists are nonempty, and otherwise aborts with a
nonzero status because stacking an empty split raises — so a nonempty corpus
does not guarantee a zero exit. -/
theorem c10_exit_status (store : String → Option RawTable)
    (rngPerm : Nat → Nat → List Nat) (parsedDir : String)
    (maxPackets minPackets : Nat) (noBalance : Bool) (seed : Nat)
    (fileFormat : String) (hN : 0 < maxPackets) :
    (mainModel store none rngPerm parsedDir maxPackets minPackets noBalance
        seed fileFormat = MainOutcome.fatal "Manifest not found" ∧
      exitStatus (MainOutcome.fatal "Manifest not found") = 1) ∧
    (mainModel store (some []) rngPerm parsedDir maxPackets minPackets
        noBalance seed fileFormat = MainOutcome.fatal "Manifest is empty." ∧
      exitStatus (MainOutcome.fatal "Manifest is empty.") = 1) ∧
    (∀ rows : List ManifestRow, ∀ v : List (List ℚ), ∀ m : List MetaRow,
      ∀ d : List Nat, rows ≠ [] →
      build_features_and_metadata store parsedDir rows maxPackets minPackets
          fileFormat = some (v, m, d) →
      ((v = [] →
        mainModel store (some rows) rngPerm parsedDir maxPackets minPackets
            noBalance seed fileFormat =
          MainOutcome.fatal "No sessions left after quality filter." ∧
        exitStatus (MainOutcome.fatal "No sessions left after quality filter.")
          = 1) ∧
       (v ≠ [] →
        (mainModel store (some rows) rngPerm parsedDir maxPackets minPackets
            noBalance seed fileFormat = MainOutcome.success ∨
         mainModel store (some rows) rngPerm parsedDir maxPackets minPackets
            noBalance seed fileFormat = MainOutcome.crash) ∧
        (mainModel store (some rows) rngPerm parsedDir maxPackets minPackets
            noBalance seed fileFormat = MainOutcome.success ↔
          ((split_no_leakage
              (rngPerm seed (visitsOf (balancedPair noBalance v m).2).length)
              (balancedPair noBalance v m).2 TRAIN_FRAC VAL_FRAC).1 ≠ [] ∧
           (split_no_leakage
              (rngPerm seed (visitsOf (balancedPair noBalance v m).2).length)
              (balancedPair noBalance v m).2 TRAIN_FRAC VAL_FRAC).2.1 ≠ [] ∧
           (split_no_leakage
              (rngPerm seed (visitsOf (balancedPair noBalance v m).2).length)
              (balancedPair noBalance v m).2 TRAIN_FRAC VAL_FRAC).2.2 ≠ []))))) ∧
    exitStatus MainOutcome.success = 0 ∧
    exitStatus MainOutcome.crash = 1 := by
  refine ⟨⟨rfl, rfl⟩, ⟨rfl, rfl⟩, ?_, rfl, rfl⟩
  intro rows v m d hrows hbuild
  constructor
  · intro hveq
    subst hveq
    have he : ¬(rows.isEmpty = true) := fun h => hrows (List.isEmpty_iff.mp h)
    refine ⟨?_, rfl⟩
    simp only [mainModel, if_neg he, hbuild]
    rfl
  · intro hv
    -- the build output is the one `buildLoop_some` describes
    obtain ⟨v2, m2, d2, hb2, hlen2, huni2⟩ :=
      buildLoop_some store parsedDir hN minPackets fileFormat 0 rows
    rw [build_features_and_metadata] at hbuild
    rw [hbuild] at hb2
    obtain ⟨rfl, rfl, rfl⟩ : v = v2 ∧ m = m2 ∧ d = d2 := by
      have h := Option.some.inj hb2
      exact ⟨congrArg (fun p => p.1) h, congrArg (fun p => p.2.1) h,
        congrArg (fun p => p.2.2) h⟩
    have hpair := balancedPair_spec noBalance v m hlen2
    have hmain := mainModel_some store rngPerm parsedDir maxPackets
      minPackets noBalance seed fileFormat hrows
      (by rw [build_features_and_metadata]; exact hbuild) hv
    have hout := assembleStage_outcome (balancedPair noBalance v m).1
      (balancedPair noBalance v m).2
      (rngPerm seed (visitsOf (balancedPair noBalance v m).2).length)
      hpair.1 (fun x hx => huni2 x (hpair.2 x hx))
    rcases hout with ⟨⟨h1, h2, h3⟩, hsucc⟩ | ⟨hemp, hcrash⟩
    · rw [hmain, hsucc]
      exact ⟨Or.inl rfl, ⟨fun _ => ⟨h1, h2, h3⟩, fun _ => rfl⟩⟩
    · rw [hmain, hcrash]
      refine ⟨Or.inr rfl, ?_, ?_⟩
      · intro h
        cases h
      · rintro ⟨n1, n2, n3⟩
        rcases hemp with h | h | h
        · exact absurd h n1
        · exact absurd h n2
        · exact absurd h n3

/-- C10 witness: with no manifest the model returns the fatal diagnostic. -/
theorem c10_witness :
    mainModel (fun _ => none) none ceRng "p" 2000 10 false 42 "csv" =
      MainOutcome.fatal "Manifest not found" :=
  ((c10_exit_status (fun _ => none) ceRng "p" 2000 10 false 42 "csv"
    (by decide)).1).1

/-- C10 counterexample: a nonempty manifest whose single 12-packet session
survives filtering still exits nonzero: with one visit identity the train and
val splits are empty, so stacking raises and the run crashes, refuting
"non-zero exactly when the manifest is absent or empty or zero sessions
survive". -/
theorem c10_counterexample :
    mainModel ceStore (some [ceRow]) ceRng "p" 12 10 false 42 "csv" =
      MainOutcome.crash ∧
    (∃ v m d,
      build_features_and_metadata ceStore "p" [ceRow] 12 10 "csv" =
        some (v, m, d) ∧ v ≠ [] ∧ d = []) := by
  obtain ⟨vec, hvec⟩ := session_to_vector_isSome (packetsOf ceTable)
    (by decide : (0 : Nat) < 12) true true true
  have hload : load_parsed_session ceStore "p" ceRow.defense_on ceRow.site_id
      ceRow.visit_id "csv" = some ceTable := by decide
  have hbuild : build_features_and_metadata ceStore "p" [ceRow] 12 10 "csv" =
      some ([vec], [metaOfRow ceRow ceTable], []) := by
    rw [build_features_and_metadata]
    simp only [buildLoop, hload,
      if_neg (by decide : ¬(ceTable.rows.length < 10)), hvec,
      Option.map_some']
  have hm0 : metaOfRow ceRow ceTable = ceMeta := by decide
  have hmain := mainModel_some ceStore ceRng "p" 12 10 false 42 "csv"
    (by decide : ([ceRow] : List ManifestRow) ≠ []) hbuild (by simp)
  rw [hm0] at hmain
  have hbp : balancedPair false [vec] [ceMeta] = ([vec], [ceMeta]) := by
    show enforce_balance [vec] [ceMeta] = ([vec], [ceMeta])
    rw [enforce_balance,
      if_neg (by decide : ¬(([ceMeta] : List MetaRow).isEmpty = true)),
      if_neg (by decide : ¬(minCount [ceMeta] = 0)),
      show balanceIndices [ceMeta] = [0] from by decide]
    simp
  rw [hbp] at hmain
  rw [show (visitsOf [ceMeta]).length = 1 from by decide] at hmain
  rw [show ceRng 42 1 = [0] from by decide] at hmain
  have hidx : (split_no_leakage [0] [ceMeta] TRAIN_FRAC VAL_FRAC).1 = [] := by
    have e1 : pyInt (((visitsOf [ceMeta]).length : ℚ) * TRAIN_FRAC) = 0 := by
      rw [show (visitsOf [ceMeta]).length = 1 from by decide]
      exact pyInt_eval (by rw [TRAIN_FRAC]; push_cast; norm_num)
    rw [split_no_leakage_eq, e1]
    show segIdx [ceMeta] ([0].take 0) = []
    decide
  have hassemble : assembleStage [vec] [ceMeta] [0] = MainOutcome.crash := by
    simp only [assembleStage]
    rw [hidx]
    rfl
  exact ⟨hmain.trans hassemble,
    [vec], [metaOfRow ceRow ceTable], [], hbuild, by simp, rfl⟩

end WFGuard
